import Mathlib

/-
Shallow embedding of the comms_champion field/message codec engine.

Translated source files:
  * src/src/lib/comms/include/comms/field/details/BitmaskValueBase.h
  * src/src/lib/comms/include/comms/util/Tuple.h
  * src/comms_champion/lib/include/comms_champion/MessageBase.h
  * src/src/app/comms_champion/include/comms_champion/field_wrapper/UnknownValueWrapper.h
  * src/src/app/comms_champion/include/comms_champion/field_wrapper/BitfieldWrapper.h
Parts of the library that are only declared, not defined, under src/
(the `Message::encodeData` entry point, the field-aggregating
`CommsBase::read`/`CommsBase::write`, and the individual field
implementations) are modelled from the specification and marked as such
in their doc comments.
-/

namespace CommsChampion

/-- Embedding of `comms::ErrorStatus` (referenced throughout the sources). -/
inductive ErrorStatus
  | Success
  | UpdateRequired
  | NotEnoughData
  | ProtocolError
  | BufferOverflow
  | InvalidMsgId
  | InvalidMsgData
  | MsgAllocFailure
  deriving DecidableEq, Repr

/-! ### Bitmask field option composition
Embedding of `comms::field::details::BitmaskValueBase`
(src/src/lib/comms/include/comms/field/details/BitmaskValueBase.h).
Each template specialisation peels one option off the head of the option
pack, derives from the base built over the remaining options, and shadows
the protected members it is responsible for. -/

/-- The field configuration options handled by the `BitmaskValueBase`
specialisations: `comms::option::FixedLength<TLen>`,
`comms::option::BitIndexingStartsFromMsb`,
`comms::option::DefaultValueInitialiser<T>`,
`comms::option::ContentsValidator<T>`.  The type payloads of the last two
are modelled as opaque numeric identifiers. -/
inductive FieldOption
  | fixedLength (len : Nat)
  | bitIndexingStartsFromMsb
  | defaultValueInitialiser (ini : Nat)
  | contentsValidator (validator : Nat)
  deriving DecidableEq, Repr

/-- The `ValueType` member of the bitmask base: either
`long long unsigned` (the default) or
`comms::util::SizeToType<SerialisedLen, false>::Type` (under
`FixedLength`); the latter is a function of the serialised length only,
so it is kept symbolic. -/
inductive BitmaskValueType
  | ull
  | sizeToType (len : Nat)
  deriving DecidableEq, Repr

/-- `sizeof(long long unsigned)` on the targeted platforms. -/
def sizeofUnsignedLongLong : Nat := 8

/-- The protected members accumulated by the `BitmaskValueBase`
specialisation chain. -/
structure BitmaskConfig where
  SerialisedLen : Nat
  ValueType : BitmaskValueType
  BitZeroIsMsb : Bool
  HasCustomInitialiser : Bool
  DefaultValueInitialiser : Option Nat
  HasCustomValidator : Bool
  ContentsValidator : Option Nat
  deriving DecidableEq, Repr

/-- The terminal specialisation `BitmaskValueBase<TField>` (lines 36-46):
`ValueType` is `long long unsigned`, `SerialisedLen = sizeof(ValueType)`,
`BitZeroIsMsb = false`, no custom initialiser, no custom validator. -/
def bitmaskValueBaseDefaults : BitmaskConfig :=
  { SerialisedLen := sizeofUnsignedLongLong
    ValueType := BitmaskValueType.ull
    BitZeroIsMsb := false
    HasCustomInitialiser := false
    DefaultValueInitialiser := none
    HasCustomValidator := false
    ContentsValidator := none }

/-- One `BitmaskValueBase` specialisation step: the members (re)defined by
the specialisation handling option `o` shadow those of the base built
from the remaining options. -/
def applyOption (o : FieldOption) (c : BitmaskConfig) : BitmaskConfig :=
  match o with
  | FieldOption.fixedLength len =>
      { c with SerialisedLen := len, ValueType := BitmaskValueType.sizeToType len }
  | FieldOption.bitIndexingStartsFromMsb =>
      { c with BitZeroIsMsb := true }
  | FieldOption.defaultValueInitialiser ini =>
      { c with HasCustomInitialiser := true, DefaultValueInitialiser := some ini }
  | FieldOption.contentsValidator v =>
      { c with HasCustomValidator := true, ContentsValidator := some v }

/-- `BitmaskValueBase<TField, TOptions...>`: recursion over the option
pack; the head specialisation's members shadow the base's. -/
def bitmaskValueBase : List FieldOption → BitmaskConfig
  | [] => bitmaskValueBaseDefaults
  | o :: rest => applyOption o (bitmaskValueBase rest)

/-- Which of the four option kinds an option is; two options of distinct
kinds shadow disjoint members. -/
def optionKind : FieldOption → Nat
  | FieldOption.fixedLength _ => 0
  | FieldOption.bitIndexingStartsFromMsb => 1
  | FieldOption.defaultValueInitialiser _ => 2
  | FieldOption.contentsValidator _ => 3

theorem applyOption_comm (a b : FieldOption) (c : BitmaskConfig)
    (h : optionKind a ≠ optionKind b) :
    applyOption a (applyOption b c) = applyOption b (applyOption a c) := by
  cases a <;> cases b <;> first
  | exact absurd rfl h
  | rfl

/-- C6: Applying the bitmask field configuration options (fixed length,
default-value initialiser, contents validator, MSB-first bit indexing) in
any order yields an identical final configuration: serialised length,
value type, bit-index origin, validator presence and initialiser presence
all agree for every permutation of a set of options of pairwise distinct
kinds. -/
theorem bitmaskValueBase_perm_invariant (l₁ l₂ : List FieldOption)
    (hperm : l₁.Perm l₂)
    (hdist : l₁.Pairwise fun a b => optionKind a ≠ optionKind b) :
    bitmaskValueBase l₁ = bitmaskValueBase l₂ := by
  induction hperm with
  | nil => rfl
  | cons x p ih =>
      have htail := hdist.of_cons
      show applyOption x (bitmaskValueBase _) = applyOption x (bitmaskValueBase _)
      rw [ih htail]
  | swap x y l =>
      have hxy : optionKind y ≠ optionKind x := (List.pairwise_cons.mp hdist).1 x (by simp)
      show applyOption y (applyOption x (bitmaskValueBase l)) =
        applyOption x (applyOption y (bitmaskValueBase l))
      exact applyOption_comm y x _ hxy
  | trans p₁ p₂ ih₁ ih₂ =>
      exact (ih₁ hdist).trans (ih₂ ((p₁.pairwise_iff fun h => h.symm).mp hdist))

theorem bitmaskValueBase_perm_invariant_witness :
    (([FieldOption.fixedLength 2, FieldOption.bitIndexingStartsFromMsb,
       FieldOption.contentsValidator 0] : List FieldOption).Perm
      [FieldOption.contentsValidator 0, FieldOption.bitIndexingStartsFromMsb,
       FieldOption.fixedLength 2]) ∧
    bitmaskValueBase
      [FieldOption.fixedLength 2, FieldOption.bitIndexingStartsFromMsb,
       FieldOption.contentsValidator 0] =
    bitmaskValueBase
      [FieldOption.contentsValidator 0, FieldOption.bitIndexingStartsFromMsb,
       FieldOption.fixedLength 2] :=
  ⟨by decide,
   bitmaskValueBase_perm_invariant _ _ (by decide) (by decide)⟩

/-- C7: A bitmask field configured with no options has the baseline
behaviour: serialised width `sizeof(long long unsigned) = 8` bytes, value
type `long long unsigned`, no custom validator, no custom default-value
initialiser, and LSB-first bit indexing (bit zero is not the MSB). -/
theorem bitmaskValueBase_baseline :
    (bitmaskValueBase []).SerialisedLen = 8 ∧
    (bitmaskValueBase []).ValueType = BitmaskValueType.ull ∧
    (bitmaskValueBase []).BitZeroIsMsb = false ∧
    (bitmaskValueBase []).HasCustomInitialiser = false ∧
    (bitmaskValueBase []).HasCustomValidator = false :=
  ⟨rfl, rfl, rfl, rfl, rfl⟩

/-! ### Tuple traversal
Embedding of `comms::util::tupleForEach`
(src/src/lib/comms/include/comms/util/Tuple.h, lines 119-164).
A K-element heterogeneous tuple is a dependent function over `Fin K`; the
callback is a state transformer (the C++ functor mutates captured state).
`details::TupleForEachHelper<TRem>::exec` invokes the callback on element
`Idx = TupleSize - TRem` and recurses on `TRem - 1`; the `TRem = 0`
specialisation does nothing. -/

/-- Element number `v` of a heterogeneous tuple, paired with its index
(the argument `std::get<Idx>(tuple)` is passed at). -/
def tupleElem {K : Nat} {Ts : Fin K → Type} (tup : (i : Fin K) → Ts i)
    (v : Nat) (hv : v < K) : (i : Fin K) × Ts i :=
  ⟨⟨v, hv⟩, tup ⟨v, hv⟩⟩

theorem tupleElem_congr {K : Nat} {Ts : Fin K → Type} (tup : (i : Fin K) → Ts i)
    {v₁ v₂ : Nat} (h₁ : v₁ < K) (h₂ : v₂ < K) (hv : v₁ = v₂) :
    tupleElem tup v₁ h₁ = tupleElem tup v₂ h₂ := by
  subst hv; rfl

/-- `details::TupleForEachHelper<TRem>::exec(tuple, func)`, with the
functor's mutable state threaded explicitly: invokes the callback on
element `Idx = TupleSize - TRem`, then recurses with `TRem - 1`. -/
def tupleForEachHelperExec {K : Nat} {Ts : Fin K → Type} {S : Type}
    (tup : (i : Fin K) → Ts i) (func : S → ((i : Fin K) × Ts i) → S) :
    (rem : Nat) → rem ≤ K → S → S
  | 0, _, s => s
  | rem + 1, h, s =>
      tupleForEachHelperExec tup func rem (Nat.le_of_succ_le h)
        (func s (tupleElem tup (K - (rem + 1)) (by omega)))

/-- `comms::util::tupleForEach(tuple, func)`: starts the helper at
`TRem = TupleSize`. -/
def tupleForEach {K : Nat} {Ts : Fin K → Type} {S : Type}
    (tup : (i : Fin K) → Ts i) (func : S → ((i : Fin K) × Ts i) → S) (s : S) : S :=
  tupleForEachHelperExec tup func K (Nat.le_refl K) s

/-- The sequence of arguments `tupleForEach` passes to its callback, in
invocation order, obtained by running it with a trace-collecting
callback. -/
def tupleInvocations {K : Nat} {Ts : Fin K → Type}
    (tup : (i : Fin K) → Ts i) : List ((i : Fin K) × Ts i) :=
  tupleForEach tup (fun acc e => acc ++ [e]) []

theorem tupleForEachHelperExec_collect_append {K : Nat} {Ts : Fin K → Type}
    (tup : (i : Fin K) → Ts i) :
    ∀ (rem : Nat) (h : rem ≤ K) (acc : List ((i : Fin K) × Ts i)),
      tupleForEachHelperExec tup (fun acc e => acc ++ [e]) rem h acc =
        acc ++ tupleForEachHelperExec tup (fun acc e => acc ++ [e]) rem h [] := by
  intro rem
  induction rem with
  | zero => intro h acc; simp [tupleForEachHelperExec]
  | succ n ih =>
      intro h acc
      rw [tupleForEachHelperExec, tupleForEachHelperExec, ih, ih (Nat.le_of_succ_le h) ([] ++ _)]
      simp

theorem tupleForEachHelperExec_foldl {K : Nat} {Ts : Fin K → Type} {S : Type}
    (tup : (i : Fin K) → Ts i) (func : S → ((i : Fin K) × Ts i) → S) :
    ∀ (rem : Nat) (h : rem ≤ K) (s : S),
      tupleForEachHelperExec tup func rem h s =
        (tupleForEachHelperExec tup (fun acc e => acc ++ [e]) rem h []).foldl func s := by
  intro rem
  induction rem with
  | zero => intro h s; simp [tupleForEachHelperExec]
  | succ n ih =>
      intro h s
      rw [tupleForEachHelperExec, ih]
      conv_rhs =>
        rw [tupleForEachHelperExec,
          tupleForEachHelperExec_collect_append tup n (Nat.le_of_succ_le h)]
      simp

theorem tupleForEachHelperExec_trace_length {K : Nat} {Ts : Fin K → Type}
    (tup : (i : Fin K) → Ts i) :
    ∀ (rem : Nat) (h : rem ≤ K),
      (tupleForEachHelperExec tup (fun acc e => acc ++ [e]) rem h []).length = rem := by
  intro rem
  induction rem with
  | zero => intro h; rfl
  | succ n ih =>
      intro h
      rw [tupleForEachHelperExec,
        tupleForEachHelperExec_collect_append tup n (Nat.le_of_succ_le h)]
      simp [ih (Nat.le_of_succ_le h)]

theorem tupleForEachHelperExec_trace_get {K : Nat} {Ts : Fin K → Type}
    (tup : (i : Fin K) → Ts i) :
    ∀ (rem : Nat) (h : rem ≤ K) (j : Nat) (hj : j < rem),
      (tupleForEachHelperExec tup (fun acc e => acc ++ [e]) rem h []).get? j =
        some (tupleElem tup (K - rem + j) (by omega)) := by
  intro rem
  induction rem with
  | zero => intro h j hj; omega
  | succ n ih =>
      intro h j hj
      rw [tupleForEachHelperExec,
        tupleForEachHelperExec_collect_append tup n (Nat.le_of_succ_le h)]
      cases j with
      | zero =>
          simp only [List.nil_append, List.singleton_append, List.get?_cons_zero]
          exact congrArg some (tupleElem_congr tup _ _ (by omega))
      | succ m =>
          have hm : m < n := by omega
          simp only [List.nil_append, List.singleton_append, List.get?_cons_succ]
          rw [ih (Nat.le_of_succ_le h) m hm]
          exact congrArg some (tupleElem_congr tup _ _ (by omega))

/-- C3: For every K-element heterogeneous tuple and every callback,
`tupleForEach` is the left fold of the callback over the list of its
invocation arguments, that list has exactly K entries, and its j-th entry
is element j of the tuple: the callback is invoked exactly K times, once
per element, in declared (index 0 to K-1) order. -/
theorem tupleForEach_invokes_in_order {K : Nat} {Ts : Fin K → Type}
    (tup : (i : Fin K) → Ts i) {S : Type}
    (func : S → ((i : Fin K) × Ts i) → S) (s : S) :
    tupleForEach tup func s = (tupleInvocations tup).foldl func s ∧
    (tupleInvocations tup).length = K ∧
    ∀ j : Fin K, (tupleInvocations tup).get? j.val = some ⟨j, tup j⟩ := by
  refine ⟨tupleForEachHelperExec_foldl tup func K (Nat.le_refl K) s,
    tupleForEachHelperExec_trace_length tup K (Nat.le_refl K), ?_⟩
  intro j
  have htr := tupleForEachHelperExec_trace_get tup K (Nat.le_refl K) j.val j.isLt
  exact htr.trans (congrArg some (tupleElem_congr tup _ j.isLt (by omega)))

/-! ### Message encode / decode
Embedding of `comms_champion::MessageBase`
(src/comms_champion/lib/include/comms_champion/MessageBase.h).
Bytes are naturals; a C++ exception is modelled explicitly and fallible
code runs in `Except`. -/

/-- A C++ exception escaping a call (e.g. `std::bad_alloc` from
`std::vector::resize`). -/
inductive CppException
  | badAlloc
  | other (code : Nat)
  deriving DecidableEq, Repr

/-- The part of the `CommsBase` interface `encodeDataRandomAccess` uses:
`length()` and `write(iter, bufLen)`.  `write` is given the buffer size
and either throws or returns an error status together with the bytes it
wrote through the iterator. -/
structure CommsMsgModel where
  length : Nat
  writeFn : Nat → Except CppException (ErrorStatus × List Nat)
  resizeThrows : Nat → Bool

/-- The `try` body of `MessageBase::encodeDataRandomAccess` (lines
141-164): `data.resize(CommsBase::length())` (which may throw), then
`CommsBase::write(iter, data.size())` (which may throw); on a
non-`Success` status the buffer is cleared and the loop broken, otherwise
the buffer is shrunk to exactly the bytes written. -/
def encodeDataRandomAccessBody (m : CommsMsgModel) :
    Except CppException (List Nat) :=
  if m.resizeThrows m.length then Except.error CppException.badAlloc
  else
    match m.writeFn m.length with
    | Except.error e => Except.error e
    | Except.ok (es, written) =>
        if es = ErrorStatus.Success then Except.ok written else Except.ok []

/-- `MessageBase::encodeDataRandomAccess`: the `try` body, with
`catch (...) { data.clear(); }` around it. -/
def encodeDataRandomAccess (m : CommsMsgModel) : List Nat :=
  match encodeDataRandomAccessBody m with
  | Except.ok data => data
  | Except.error _ => []

/-- One field of a message, as seen by the message-level `write`: the
status its own `write` reports and the bytes it emits. -/
structure FieldWrite where
  status : ErrorStatus
  bytes : List Nat
  deriving DecidableEq, Repr

/-- Modelled from the spec: the field-aggregating `CommsBase::write`
(defined in the comms library, not under src/) writes every field in
declared order into the buffer and aborts with the failing field's status
on the first field failure. -/
def writeFields : List FieldWrite → ErrorStatus × List Nat
  | [] => (ErrorStatus.Success, [])
  | f :: rest =>
      if f.status = ErrorStatus.Success then
        let r := writeFields rest
        (r.1, f.bytes ++ r.2)
      else (f.status, [])

/-- A `CommsMsgModel` whose `write` is the field-aggregating write over
the given field list, with no exceptions thrown. -/
def msgOfFields (fs : List FieldWrite) : CommsMsgModel :=
  { length := (fs.map fun f => f.bytes.length).sum
    writeFn := fun _ => Except.ok (writeFields fs)
    resizeThrows := fun _ => false }

theorem writeFields_fail (fs : List FieldWrite) (f : FieldWrite)
    (hf : f ∈ fs) (hfail : f.status ≠ ErrorStatus.Success) :
    (writeFields fs).1 ≠ ErrorStatus.Success := by
  induction fs with
  | nil => cases hf
  | cons g rest ih =>
      by_cases hg : g.status = ErrorStatus.Success
      · rcases List.mem_cons.mp hf with hfg | hmem
        · exact absurd (hfg ▸ hfail) (by simp [hg])
        · simpa [writeFields, hg] using ih hmem
      · simp [writeFields, hg]

/-- C1: Message encoding through the random-access path is
all-or-nothing: if any field's write fails, the message-level write
reports a non-`Success` status and `encodeDataRandomAccess` clears the
buffer and returns the empty byte sequence — no partial bytes are
returned. -/
theorem encodeDataRandomAccess_allOrNothing (fs : List FieldWrite)
    (f : FieldWrite) (hf : f ∈ fs) (hfail : f.status ≠ ErrorStatus.Success) :
    encodeDataRandomAccess (msgOfFields fs) = [] := by
  have hne := writeFields_fail fs f hf hfail
  rcases hr : writeFields fs with ⟨es, written⟩
  rw [hr] at hne
  simp only at hne
  simp only [encodeDataRandomAccess, encodeDataRandomAccessBody, msgOfFields, hr]
  simp [hne]

theorem encodeDataRandomAccess_allOrNothing_witness :
    (FieldWrite.mk ErrorStatus.BufferOverflow [] ∈
      [FieldWrite.mk ErrorStatus.Success [1, 2],
       FieldWrite.mk ErrorStatus.BufferOverflow []]) ∧
    encodeDataRandomAccess
      (msgOfFields
        [FieldWrite.mk ErrorStatus.Success [1, 2],
         FieldWrite.mk ErrorStatus.BufferOverflow []]) = [] :=
  ⟨by decide,
   encodeDataRandomAccess_allOrNothing _ (FieldWrite.mk ErrorStatus.BufferOverflow [])
     (by decide) (by decide)⟩

/-- C10: The random-access encode path never propagates an exception: if
resizing the buffer or writing the fields throws, the `catch (...)`
handler clears the buffer and the empty byte sequence is returned. -/
theorem encodeDataRandomAccess_catches (m : CommsMsgModel) (e : CppException)
    (h : encodeDataRandomAccessBody m = Except.error e) :
    encodeDataRandomAccess m = [] := by
  unfold encodeDataRandomAccess
  rw [h]

theorem encodeDataRandomAccess_catches_witness :
    (encodeDataRandomAccessBody
      (CommsMsgModel.mk 4 (fun _ => Except.ok (ErrorStatus.Success, []))
        (fun _ => true)) = Except.error CppException.badAlloc) ∧
    encodeDataRandomAccess
      (CommsMsgModel.mk 4 (fun _ => Except.ok (ErrorStatus.Success, []))
        (fun _ => true)) = [] :=
  ⟨rfl,
   encodeDataRandomAccess_catches _ CppException.badAlloc rfl⟩

/-! ### Encode entry point and decode, with call traces
The public `Message::encodeData` entry point and the field-aggregating
`CommsBase::read` are declared but not defined under src/; they are
modelled from the specification.  Call traces record which of the
message-level operations (`refresh`, `valid`, per-field `read`/`write`)
are invoked, and in which order. -/

/-- An observable call made while encoding or decoding a message. -/
inductive MsgEvent
  | refreshCall
  | validCall
  | fieldWrite (idx : Nat)
  | fieldRead (idx : Nat)
  deriving DecidableEq, Repr

/-- The per-field write calls the message-level write performs, in order,
starting at field index `i`: fields are written while they succeed; the
first failing field is the last one written. -/
def writeFieldsTrace : Nat → List FieldWrite → List MsgEvent
  | _, [] => []
  | i, f :: rest =>
      if f.status = ErrorStatus.Success then
        MsgEvent.fieldWrite i :: writeFieldsTrace (i + 1) rest
      else [MsgEvent.fieldWrite i]

/-- Modelled from the spec: the `encode()` entry point (the
`Message::encodeData` definition is not under src/) invokes `refresh()`
once and then encodes the fields via `encodeDataImpl`, which for the
random-access write iterator is `encodeDataRandomAccess`.  Returns the
produced bytes together with the trace of calls made. -/
def encodeData (fs : List FieldWrite) : List Nat × List MsgEvent :=
  (encodeDataRandomAccess (msgOfFields fs),
   MsgEvent.refreshCall :: writeFieldsTrace 0 fs)

theorem writeFieldsTrace_all_writes (fs : List FieldWrite) :
    ∀ (i : Nat) (e : MsgEvent), e ∈ writeFieldsTrace i fs →
      ∃ j, e = MsgEvent.fieldWrite j := by
  induction fs with
  | nil => intro i e he; cases he
  | cons f rest ih =>
      intro i e he
      by_cases hf : f.status = ErrorStatus.Success
      · rw [writeFieldsTrace, if_pos hf] at he
        rcases List.mem_cons.mp he with h | h
        · exact ⟨i, h⟩
        · exact ih (i + 1) e h
      · rw [writeFieldsTrace, if_neg hf] at he
        rcases List.mem_singleton.mp he with h
        exact ⟨i, h⟩

/-- C2: For every message, the encode operation invokes `refresh()`
exactly once, as its very first call, before any field's bytes are
written: the call trace contains exactly one `refresh` call, it is the
head of the trace, and every later call is a field write. -/
theorem encodeData_refresh_once_first (fs : List FieldWrite) :
    ((encodeData fs).2).count MsgEvent.refreshCall = 1 ∧
    ((encodeData fs).2).head? = some MsgEvent.refreshCall ∧
    ∀ e ∈ ((encodeData fs).2).tail, ∃ j, e = MsgEvent.fieldWrite j := by
  refine ⟨?_, rfl, fun e he => writeFieldsTrace_all_writes fs 0 e he⟩
  show (MsgEvent.refreshCall :: writeFieldsTrace 0 fs).count MsgEvent.refreshCall = 1
  rw [List.count_cons_self]
  have hz : (writeFieldsTrace 0 fs).count MsgEvent.refreshCall = 0 := by
    rw [List.count_eq_zero]
    intro hmem
    rcases writeFieldsTrace_all_writes fs 0 MsgEvent.refreshCall hmem with ⟨j, hj⟩
    cases hj
  rw [hz]

/-- One field of a message, as seen by the message-level `read`: given
the remaining input it reports a status and the input left after it. -/
structure FieldRead where
  readFn : List Nat → ErrorStatus × List Nat

/-- Modelled from the spec: the field-aggregating `CommsBase::read`
(defined in the comms library, not under src/) reads every field in
declared order from the input and stops with the failing field's status
on the first field failure. -/
def readFieldsStatus : List FieldRead → List Nat → ErrorStatus × List Nat
  | [], rem => (ErrorStatus.Success, rem)
  | f :: rest, rem =>
      let r := f.readFn rem
      if r.1 = ErrorStatus.Success then readFieldsStatus rest r.2 else r

/-- The per-field read calls the message-level read performs, in order,
starting at field index `i`. -/
def readFieldsTrace : Nat → List FieldRead → List Nat → List MsgEvent
  | _, [], _ => []
  | i, f :: rest, rem =>
      let r := f.readFn rem
      if r.1 = ErrorStatus.Success then
        MsgEvent.fieldRead i :: readFieldsTrace (i + 1) rest r.2
      else [MsgEvent.fieldRead i]

/-- Whether every field, read in declared order from the input, reports
`Success`. -/
def allReadsSucceed : List FieldRead → List Nat → Bool
  | [], _ => true
  | f :: rest, rem =>
      let r := f.readFn rem
      (r.1 = ErrorStatus.Success) && allReadsSucceed rest r.2

/-- `MessageBase::decodeDataRandomAccessWithIter` (lines 210-215):
`es = CommsBase::read(iter, bufSize); return es == Success;`. -/
def decodeDataRandomAccessWithIter (fs : List FieldRead) (data : List Nat) : Bool :=
  (readFieldsStatus fs data).1 = ErrorStatus.Success

/-- `MessageBase::decodeDataImpl` (lines 102-111) dispatches to the
random-access decode; paired with the trace of calls made. -/
def decodeData (fs : List FieldRead) (data : List Nat) : Bool × List MsgEvent :=
  (decodeDataRandomAccessWithIter fs data, readFieldsTrace 0 fs data)

theorem decode_status_iff_allReads (fs : List FieldRead) :
    ∀ data : List Nat,
      ((readFieldsStatus fs data).1 = ErrorStatus.Success ↔
        allReadsSucceed fs data = true) := by
  induction fs with
  | nil => intro data; simp [readFieldsStatus, allReadsSucceed]
  | cons f rest ih =>
      intro data
      by_cases hf : (f.readFn data).1 = ErrorStatus.Success
      · simp [readFieldsStatus, allReadsSucceed, hf, ih]
      · simp [readFieldsStatus, allReadsSucceed, hf]

theorem readFieldsTrace_all_reads (fs : List FieldRead) :
    ∀ (i : Nat) (data : List Nat) (e : MsgEvent), e ∈ readFieldsTrace i fs data →
      ∃ j, e = MsgEvent.fieldRead j := by
  induction fs with
  | nil => intro i data e he; cases he
  | cons f rest ih =>
      intro i data e he
      by_cases hf : (f.readFn data).1 = ErrorStatus.Success
      · rw [readFieldsTrace, if_pos hf] at he
        rcases List.mem_cons.mp he with h | h
        · exact ⟨i, h⟩
        · exact ih (i + 1) _ e h
      · rw [readFieldsTrace, if_neg hf] at he
        exact ⟨i, List.mem_singleton.mp he⟩

theorem readFieldsTrace_stops_at_first_failure (fs : List FieldRead) :
    ∀ (i : Nat) (data : List Nat) (j : Nat),
      MsgEvent.fieldRead j ∈ readFieldsTrace i fs data →
      i ≤ j ∧ allReadsSucceed (fs.take (j - i)) data = true := by
  induction fs with
  | nil => intro i data j hj; cases hj
  | cons f rest ih =>
      intro i data j hj
      by_cases hf : (f.readFn data).1 = ErrorStatus.Success
      · rw [readFieldsTrace, if_pos hf] at hj
        rcases List.mem_cons.mp hj with h | h
        · have hij : j = i := by
            injection h
          refine ⟨hij.ge, ?_⟩
          rw [hij, Nat.sub_self, List.take_zero]
          rfl
        · rcases ih (i + 1) _ j h with ⟨hle, hsucc⟩
          refine ⟨by omega, ?_⟩
          have hji : j - i = (j - (i + 1)) + 1 := by omega
          rw [hji, List.take_succ_cons]
          simp [allReadsSucceed, hf, hsucc]
      · rw [readFieldsTrace, if_neg hf] at hj
        have hij : j = i := by
          have hji := List.mem_singleton.mp hj
          injection hji
        refine ⟨hij.ge, ?_⟩
        rw [hij, Nat.sub_self, List.take_zero]
        rfl

/-- C5: For every message and input, decode returns `true` iff reading
every field in declared order from the input reports `Success`; decode
stops at the first field failure (a field is only read after all fields
before it succeeded), and it performs no `refresh()` call and no
`valid()` check itself. -/
theorem decodeData_iff_all_fields (fs : List FieldRead) (data : List Nat) :
    ((decodeData fs data).1 = true ↔ allReadsSucceed fs data = true) ∧
    (∀ j : Nat, MsgEvent.fieldRead j ∈ (decodeData fs data).2 →
      allReadsSucceed (fs.take j) data = true) ∧
    MsgEvent.refreshCall ∉ (decodeData fs data).2 ∧
    MsgEvent.validCall ∉ (decodeData fs data).2 := by
  refine ⟨?_, ?_, ?_, ?_⟩
  · show (decide ((readFieldsStatus fs data).1 = ErrorStatus.Success) = true ↔ _)
    rw [decide_eq_true_iff]
    exact decode_status_iff_allReads fs data
  · intro j hj
    have := readFieldsTrace_stops_at_first_failure fs 0 data j hj
    simpa using this.2
  · intro hmem
    rcases readFieldsTrace_all_reads fs 0 data _ hmem with ⟨j, hj⟩
    cases hj
  · intro hmem
    rcases readFieldsTrace_all_reads fs 0 data _ hmem with ⟨j, hj⟩
    cases hj

/-! ### Field wrappers (adapters)
Embedding of `comms_champion::field_wrapper::UnknownValueWrapperT`
(src/src/app/comms_champion/include/comms_champion/field_wrapper/UnknownValueWrapper.h)
and `BitfieldWrapperT`
(src/src/app/comms_champion/include/comms_champion/field_wrapper/BitfieldWrapper.h).
The individual field implementations are not under src/; a field is
modelled from the specification (section 4.1): `read` consumes the bytes
and updates the value exactly when it returns `Success`, and returns a
non-`Success` status otherwise. -/

/-- Modelled from the spec: a concrete field as seen through `read`.
`decodeBytes` is the field's own decode: `some v` when the bytes decode
to value `v` (and `read` returns `Success` after updating the value),
`none` when they do not (and `read` returns the non-`Success`
`failStatus`, leaving the value unchanged). -/
structure SpecField (V : Type) where
  value : V
  decodeBytes : List Nat → Option V
  failStatus : ErrorStatus
  failStatus_ne : failStatus ≠ ErrorStatus.Success

/-- The field's `read(iter, size)`: status plus the field afterwards. -/
def SpecField.read {V : Type} (f : SpecField V) (bytes : List Nat) :
    ErrorStatus × SpecField V :=
  match f.decodeBytes bytes with
  | some v => (ErrorStatus.Success, { f with value := v })
  | none => (f.failStatus, f)

/-- `UnknownValueWrapperT::setSerialisedValueImpl` (lines 72-81): an
empty sequence returns `false` immediately; otherwise the field's own
`read` runs over the bytes and the result is `es == Success`.  Returns
the reported `bool` together with the field afterwards. -/
def setSerialisedValue {V : Type} (f : SpecField V) (value : List Nat) :
    Bool × SpecField V :=
  if value.isEmpty then (false, f)
  else
    let r := f.read value
    (r.1 = ErrorStatus.Success, r.2)

/-- C4: `setSerialisedValue` returns `false` and leaves the field's prior
value unchanged whenever the byte sequence is empty or the field's own
read of those bytes fails; in particular an empty byte sequence always
returns `false` with the field untouched. -/
theorem setSerialisedValue_fail_unchanged {V : Type} (f : SpecField V)
    (value : List Nat) (h : value = [] ∨ f.decodeBytes value = none) :
    (setSerialisedValue f value).1 = false ∧ (setSerialisedValue f value).2 = f := by
  rcases h with hempty | hfail
  · subst hempty
    exact ⟨rfl, rfl⟩
  · by_cases hempty : value.isEmpty
    · rw [setSerialisedValue, if_pos hempty]
      exact ⟨rfl, rfl⟩
    · have hread : f.read value = (f.failStatus, f) := by
        rw [SpecField.read, hfail]
      simp [setSerialisedValue, hempty, hread, f.failStatus_ne]

theorem setSerialisedValue_fail_unchanged_witness :
    (setSerialisedValue
      (SpecField.mk 7 (fun _ => (none : Option Nat)) ErrorStatus.InvalidMsgData
        (by decide)) [3, 4]).1 = false ∧
    (setSerialisedValue
      (SpecField.mk 7 (fun _ => (none : Option Nat)) ErrorStatus.InvalidMsgData
        (by decide)) [3, 4]).2 =
      SpecField.mk 7 (fun _ => (none : Option Nat)) ErrorStatus.InvalidMsgData
        (by decide) :=
  setSerialisedValue_fail_unchanged
    (SpecField.mk 7 (fun _ => (none : Option Nat)) ErrorStatus.InvalidMsgData
      (by decide)) [3, 4] (Or.inr rfl)

/-- Modelled from the spec: a concrete field as seen through `write` and
`length()`: `writeFn v` is the byte sequence `write` emits for value `v`
into an unbounded back-insert buffer (with `maxLen = max_size()`, `write`
cannot overflow), and `lengthFn v` is `length()` at value `v`. -/
structure WriteField (V : Type) where
  value : V
  lengthFn : V → Nat
  writeFn : V → List Nat

/-- `UnknownValueWrapperT::getSerialisedValueImpl` (lines 62-70): reserve
`field.length()` bytes (behaviourally a no-op), let the field write
itself through a back-inserter, return the collected bytes. -/
def getSerialisedValue {V : Type} (f : WriteField V) : List Nat :=
  f.writeFn f.value

/-- C9: `getSerialisedValue` returns exactly the bytes the field's
`write()` produces for the field's current value; under the documented
field invariant that `write` always emits exactly `length()` bytes
(spec section 3), that sequence has exactly `length()` bytes. -/
theorem getSerialisedValue_eq_write {V : Type} (f : WriteField V)
    (hlen : ∀ v, (f.writeFn v).length = f.lengthFn v) :
    getSerialisedValue f = f.writeFn f.value ∧
    (getSerialisedValue f).length = f.lengthFn f.value :=
  ⟨rfl, hlen f.value⟩

theorem getSerialisedValue_eq_write_witness :
    getSerialisedValue (WriteField.mk 5 (fun _ => 2) fun v => [v % 256, 1]) =
      [5, 1] ∧
    (getSerialisedValue (WriteField.mk 5 (fun _ => 2) fun v => [v % 256, 1])).length =
      2 :=
  getSerialisedValue_eq_write (WriteField.mk 5 (fun _ => 2) fun v => [v % 256, 1])
    fun _ => rfl

/-- The compile-time facts about a field type that the `BitfieldWrapperT`
static assertions examine: `sizeof` of its `ValueType`, whether that type
is signed, and whether the field is a `comms::field::Bitfield`. -/
structure FieldTypeInfo where
  sizeofValueType : Nat
  isSignedValueType : Bool
  isBitfield : Bool
  deriving DecidableEq, Repr

/-- The static assertions of `BitfieldWrapperT` (lines 46-52), checked at
definition time: the field is a bitfield, `sizeof(ValueType) <=
sizeof(long long unsigned)`, and the value type is signed or strictly
narrower than the underlying type. -/
def bitfieldWrapperStaticChecks (info : FieldTypeInfo) : Prop :=
  info.isBitfield = true ∧
  info.sizeofValueType ≤ sizeofUnsignedLongLong ∧
  (info.isSignedValueType = true ∨ info.sizeofValueType < sizeofUnsignedLongLong)

/-- `BitfieldWrapperT<TField>`: an instance holds a reference to the
wrapped field and can only be formed when the static assertions hold —
a template whose asserts fail does not instantiate. -/
structure BitfieldWrapperT (info : FieldTypeInfo) where
  fieldRef : Nat
  checks : bitfieldWrapperStaticChecks info

/-- C8: An adapter over a field whose native value bit-width exceeds the
adapter's fixed 64-bit representation width is rejected at definition
time: no `BitfieldWrapperT` instance over such a field type can exist. -/
theorem bitfieldWrapper_rejects_wide_fields (info : FieldTypeInfo)
    (hwide : 64 < 8 * info.sizeofValueType) : IsEmpty (BitfieldWrapperT info) :=
  ⟨fun w => absurd w.checks.2.1 (by
    rw [sizeofUnsignedLongLong]
    omega)⟩

theorem bitfieldWrapper_rejects_wide_fields_witness :
    (64 < 8 * (FieldTypeInfo.mk 16 false true).sizeofValueType) ∧
    IsEmpty (BitfieldWrapperT (FieldTypeInfo.mk 16 false true)) :=
  ⟨by decide,
   bitfieldWrapper_rejects_wide_fields (FieldTypeInfo.mk 16 false true) (by decide)⟩

end CommsChampion
